import Mathlib

/-!
# Verification of the toy MIMO system generator/simulator

Shallow embedding of `src/mimo_system.py` (class `ToyMIMO`): the random
transfer-function factory, the MIMO excitation loop built on per-channel
SISO simulation, the FFT round-trip utilities and the polynomial formatter.

Floating-point draws and coefficients are modelled as exact rationals
(IEEE doubles are rationals); time signals are modelled over `ℝ`.
The numpy global pseudo-random generator is modelled as a pair of abstract
draw streams together with read positions.
-/

namespace ToyMIMO

/-- Model of the numpy global random state (`np.random.seed(42)` seeds it at
module import): an abstract stream of integer draws (consumed by
`np.random.randint`) and a stream of unit-interval draws (consumed by
`np.random.uniform`), each with its current read position.  A fixed seed
determines both streams. -/
structure RandState where
  istream : Nat → Nat
  rstream : Nat → ℚ
  ipos : Nat
  rpos : Nat

/-- Modelled from the spec: `np.random.randint(lo, hi)` draws an integer
uniformly from `[lo, hi)`.  Modelled as consuming one value from the integer
draw stream, reduced into the range by `mod` (support is exactly `[lo, hi)`
when `lo < hi`); uniformity of the underlying generator is abstracted into
the stream. -/
def np_randint (lo hi : Nat) (s : RandState) : Nat × RandState :=
  (lo + s.istream s.ipos % (hi - lo), { s with ipos := s.ipos + 1 })

/-- Modelled from the spec: one scalar draw of `np.random.uniform(lo, hi)`,
as the affine image of one unit-interval stream value. -/
def np_uniform_one (lo hi : ℚ) (s : RandState) : ℚ × RandState :=
  (lo + (hi - lo) * s.rstream s.rpos, { s with rpos := s.rpos + 1 })

/-- Modelled from the spec: `np.random.uniform(lo, hi, n)` draws an array of
`n` independent values from `[lo, hi]`. -/
def np_uniform (lo hi : ℚ) : Nat → RandState → List ℚ × RandState
  | 0, s => ([], s)
  | n + 1, s =>
    let p := np_uniform_one lo hi s
    let q := np_uniform lo hi n p.2
    (p.1 :: q.1, q.2)

/-- `ToyMIMO.get_random_order(order_min, order_max)`:
`np.random.randint(order_min, order_max + 1)`. -/
def get_random_order (order_min order_max : Nat) (s : RandState) : Nat × RandState :=
  np_randint order_min (order_max + 1) s

/-- `ToyMIMO.get_orders(order_max=3)`: draw `order_num` from
`[1, order_max]`, then `order_den` from `[order_num, order_max + 1]`. -/
def get_orders (s : RandState) (order_max : Nat := 3) : (Nat × Nat) × RandState :=
  let p := get_random_order 1 order_max s
  let q := get_random_order p.1 (order_max + 1) p.2
  ((p.1, q.1), q.2)

/-- `ToyMIMO.get_num(order)`: `np.random.uniform(-1, 1, order + 1)`. -/
def get_num (order : Nat) (s : RandState) : List ℚ × RandState :=
  np_uniform (-1) 1 (order + 1) s

/-- Discrete convolution of two coefficient sequences (`np.convolve`):
`out[k] = Σ_j a[j] * v[k - j]`, output length `a.length + v.length - 1`
(stated generically so the same formula serves the rational pipeline and
its evaluation over `ℂ`). -/
def convolve {R : Type} [CommRing R] : List R → List R → List R
  | [], _ => []
  | [a0], v => v.map (fun c => a0 * c)
  | a0 :: a1 :: a, v =>
    List.zipWith (· + ·)
      (v.map (fun c => a0 * c) ++ List.replicate (a.length + 1) 0)
      (0 :: convolve (a1 :: a) v)

/-- `np.poly(roots)`: expand the monic polynomial with the given roots into
descending-order coefficients by repeated convolution with `[1, -root]`. -/
def np_poly {R : Type} [CommRing R] (roots : List R) : List R :=
  roots.foldl (fun a r => convolve a [1, -r]) [1]

/-- `ToyMIMO.get_den(order)`: negate `order` uniform draws from
`[0.1, 5.0]` to obtain the poles, then expand the monic polynomial with
those roots (`np.poly`). -/
def get_den (order : Nat) (s : RandState) : List ℚ × RandState :=
  let p := np_uniform (1/10) 5 order s
  (np_poly (p.1.map (fun m => -m)), p.2)

/-- The parameter record stored per grid cell by `ToyMIMO.initialization`. -/
structure TFParams where
  order_num : Nat
  order_den : Nat
  num : List ℚ
  den : List ℚ
deriving DecidableEq, Repr

/-- `ToyMIMO.get_transfer_function_parameters`: orders via `get_orders()`
(with its default bound `order_max = 3`; no caller supplies another bound),
then numerator and denominator coefficients. -/
def get_transfer_function_parameters (s : RandState) : TFParams × RandState :=
  let o := get_orders s
  let n := get_num o.1.1 o.2
  let d := get_den o.1.2 n.2
  (⟨o.1.1, o.1.2, n.1, d.1⟩, d.2)

/-- Inner loop of `ToyMIMO.initialization`: fill one row of the grid,
one factory call per input column. -/
def init_row : Nat → RandState → List TFParams × RandState
  | 0, s => ([], s)
  | c + 1, s =>
    let p := get_transfer_function_parameters s
    let q := init_row c p.2
    (p.1 :: q.1, q.2)

/-- Outer loop of `ToyMIMO.initialization`: fill the rows in order. -/
def init_rows (nr_inputs : Nat) : Nat → RandState → List (List TFParams) × RandState
  | 0, s => ([], s)
  | r + 1, s =>
    let p := init_row nr_inputs s
    let q := init_rows nr_inputs r p.2
    (p.1 :: q.1, q.2)

/-- `ToyMIMO.initialization`: build the `nr_outputs × nr_inputs` parameter
grid row-major (output row outer, input column inner).  Persistence of the
grid and the wall-clock system name are external collaborators and are not
modelled. -/
def initialization (nr_inputs nr_outputs : Nat) (s : RandState) :
    List (List TFParams) × RandState :=
  init_rows nr_inputs nr_outputs s

/-- Evaluate a descending-order complex coefficient list at a complex
point (Horner's rule); the denominator coefficients produced by `np.poly`
are in descending order, so the roots of `D(s)` are the zeros of this
evaluation after casting the rational coefficients into `ℂ`. -/
def evalDesc (l : List ℂ) (z : ℂ) : ℂ :=
  l.foldl (fun acc c => acc * z + c) 0

/-- The order bounds that hold of every factory-produced parameter record. -/
def OrderBounds (c : TFParams) : Prop :=
  1 ≤ c.order_num ∧ c.order_num ≤ 3 ∧
    c.order_num ≤ c.order_den ∧ c.order_den ≤ 4

instance (c : TFParams) : Decidable (OrderBounds c) := by
  unfold OrderBounds; infer_instance

/-- The unit-interval well-formedness of the real draw stream: every stream
value lies in `[0, 1]`, so that `np.random.uniform(lo, hi)` lands in
`[lo, hi]`. -/
def UnitDraws (s : RandState) : Prop :=
  ∀ k, 0 ≤ s.rstream k ∧ s.rstream k ≤ 1

/-- Two random states at the same read positions whose streams agree on the
next `I` integer draws and `R` real draws.  Two processes seeded with the
same fixed seed are in this relation for every window. -/
def AgreeUpTo (s₁ s₂ : RandState) (I R : Nat) : Prop :=
  s₁.ipos = s₂.ipos ∧ s₁.rpos = s₂.rpos ∧
    (∀ k, k < s₁.ipos + I → s₁.istream k = s₂.istream k) ∧
    (∀ k, k < s₁.rpos + R → s₁.rstream k = s₂.rstream k)

/-- Numpy in-place vector addition `y += yi` for a 1-D float array `y`:
element-wise when the lengths match, broadcast when the added array has a
single element, and a shape error (`none`) otherwise. -/
def np_add_vec (y yi : List ℝ) : Option (List ℝ) :=
  if yi.length = y.length then some (List.zipWith (· + ·) y yi)
  else if yi.length = 1 then some (y.map (fun a => a + yi.headD 0))
  else none

/-- `ToyMIMO.excite_channel`: wraps `scipy.signal.lsim(H, U=u, T=t_stamp)`
and keeps only the output samples.  The numeric solver is external library
code, abstracted here as a per-channel response function `lsim`;
`scipy.signal.lsim` rejects an input whose sample count differs from the
number of time stamps, which is the `none` case. -/
def excite_channel {α : Type} (lsim : α → List ℝ → List ℝ → List ℝ)
    (H : α) (u t_stamp : List ℝ) : Option (List ℝ) :=
  if u.length = t_stamp.length then some (lsim H u t_stamp) else none

/-- Loop body of `ToyMIMO.excite_dof`: `for i in range(m): y +=
excite_channel(H[i], u[i, :], t_stamp)`.  The loop is driven by the rows of
`u`; indexing `H[i]` past the end of the row of transfer functions is an
index error (`none`). -/
def excite_dof_loop {α : Type} (lsim : α → List ℝ → List ℝ → List ℝ)
    (t_stamp : List ℝ) :
    List (List ℝ) → List α → List ℝ → Option (List ℝ)
  | [], _, y => some y
  | _ :: _, [], _ => none
  | ui :: urest, Hi :: Hrest, y =>
    match excite_channel lsim Hi ui t_stamp with
    | none => none
    | some yi =>
      match np_add_vec y yi with
      | none => none
      | some y2 => excite_dof_loop lsim t_stamp urest Hrest y2

/-- `ToyMIMO.excite_dof`: `m, N = u.shape; y = np.zeros((N,))`, then the
accumulation loop over the rows of `u`. -/
def excite_dof {α : Type} (lsim : α → List ℝ → List ℝ → List ℝ)
    (H : List α) (u : List (List ℝ)) (t_stamp : List ℝ) : Option (List ℝ) :=
  excite_dof_loop lsim t_stamp u H (List.replicate (u.headD []).length 0)

/-- Loop body of `ToyMIMO.excite_system`: row `i` of the output is
`excite_dof(H[i, :], u, t_stamp)`; the assignment `y[i, :] = ...` requires
the row to have `N` samples (or a single broadcastable sample). -/
def excite_system_loop {α : Type} (lsim : α → List ℝ → List ℝ → List ℝ)
    (u : List (List ℝ)) (t_stamp : List ℝ) (N : Nat) :
    List (List α) → Option (List (List ℝ))
  | [] => some []
  | Hi :: Hrest =>
    match excite_dof lsim Hi u t_stamp with
    | none => none
    | some yi =>
      if yi.length = N then
        match excite_system_loop lsim u t_stamp N Hrest with
        | none => none
        | some ys => some (yi :: ys)
      else if yi.length = 1 then
        match excite_system_loop lsim u t_stamp N Hrest with
        | none => none
        | some ys => some (List.replicate N (yi.headD 0) :: ys)
      else none

/-- `ToyMIMO.excite_system`: `_, N = u.shape; y = np.zeros((nr_outputs, N))`
then one `excite_dof` per output row.  A built system has exactly
`nr_outputs` rows in `H`, so the `range(self.nr_outputs)` loop is the loop
over the rows of `H`. -/
def excite_system {α : Type} (lsim : α → List ℝ → List ℝ → List ℝ)
    (H : List (List α)) (u : List (List ℝ)) (t_stamp : List ℝ) :
    Option (List (List ℝ)) :=
  excite_system_loop lsim u t_stamp (u.headD []).length H

/-- The spec's superposition sum for one output row: the element-wise sum
over input columns `j` of the per-channel responses
`lsim H[i][j] U[j] t`, starting from the zero vector of length `N`. -/
def sum_responses {α : Type} (lsim : α → List ℝ → List ℝ → List ℝ)
    (Hrow : List α) (u : List (List ℝ)) (t_stamp : List ℝ) (N : Nat) : List ℝ :=
  (List.zipWith (fun Hj uj => lsim Hj uj t_stamp) Hrow u).foldl
    (fun y yi => List.zipWith (· + ·) y yi) (List.replicate N 0)

/-- Modelled from the spec: the zero-initial-state response of a SISO LTI
channel (`scipy.signal.lsim`, external library code) is a causal linear
operator on the sampled input — output sample `k` is a weighted sum of the
input samples `j ≤ k`, with weights determined by the channel and the time
grid (the sampled impulse response / ODE solution operator). -/
def lsim_linear {α : Type} (K : α → List ℝ → Nat → Nat → ℝ) (H : α)
    (u t_stamp : List ℝ) : List ℝ :=
  (List.range t_stamp.length).map (fun k =>
    ∑ j in Finset.range u.length,
      (if j ≤ k then K H t_stamp k j * u.getD j 0 else 0))

/-- Modelled from the spec: `np.fft.fft` on one channel of `N` samples
(external library code), with the twiddle root passed explicitly: entry `k`
is `Σ_{n<N} x[n]·ω^(k·n)`, where numpy uses `ω = exp(-2πi/N)`. -/
def dft (ω : ℂ) (x : List ℂ) : List ℂ :=
  (List.range x.length).map (fun k =>
    ((List.range x.length).map (fun n => x.getD n 0 * ω ^ (k * n))).sum)

/-- Modelled from the spec: `np.fft.ifft` on one channel: entry `n` is
`invN · Σ_{k<N} X[k]·ω'^(k·n)`, where numpy uses the conjugate root
`ω' = exp(+2πi/N) = ω⁻¹` and the normalisation `invN = 1/N`. -/
def idft (ω' invN : ℂ) (X : List ℂ) : List ℂ :=
  (List.range X.length).map (fun n =>
    invN * ((List.range X.length).map (fun k => X.getD k 0 * ω' ^ (k * n))).sum)

/-- `ToyMIMO.time2freq`: `np.fft.fft(signal, axis=1)` — the DFT applied to
every channel (row) independently, the real samples taken into `ℂ`. -/
def time2freq (ω : ℂ) (sig : List (List ℝ)) : List (List ℂ) :=
  sig.map (fun row => dft ω (row.map (fun x : ℝ => (x : ℂ))))

/-- `ToyMIMO.freq2time`: `np.fft.ifft(SIGNAL, axis=1).real` — the inverse
DFT applied to every channel independently, then the imaginary parts are
discarded, returning a real-valued array. -/
def freq2time (ω' invN : ℂ) (SIG : List (List ℂ)) : List (List ℝ) :=
  SIG.map (fun row => (idft ω' invN row).map Complex.re)

/-- Round to the nearest integer, ties to even (the rounding used when
Python formats a float with `%.5f`). -/
def round_half_even (x : ℚ) : ℤ :=
  let n := ⌊x⌋
  if x - n < 1/2 then n
  else if 1/2 < x - n then n + 1
  else if n % 2 = 0 then n else n + 1

/-- Decimal digits padded on the left with zeros to width 5. -/
def pad5 (n : Nat) : String :=
  let s := toString n
  String.mk (List.replicate (5 - s.length) (Char.ofNat 48)) ++ s

/-- Python's fixed-point formatting `f"{x:.5f}"` for a nonnegative value:
exactly five decimal places. -/
def format5 (x : ℚ) : String :=
  let n := (round_half_even (x * 100000)).toNat
  toString (n / 100000) ++ "." ++ pad5 (n % 100000)

/-- The loop of `ToyMIMO.get_format`: `for i, coef in enumerate(a)` with
`exponent = order - i`, skipping zero coefficients, building the term from
the 5-decimal absolute value with no suffix / `s` / `s^n`, prefixing `- `
when the coefficient is negative, `+ ` when positive and some term was
already emitted, and nothing for a leading positive term. -/
def get_format_loop (order : Nat) : Nat → List ℚ → List String → List String
  | _, [], terms => terms
  | i, coef :: rest, terms =>
    if coef = 0 then get_format_loop order (i + 1) rest terms
    else
      let exponent := order - i
      let term :=
        if exponent = 0 then format5 |coef|
        else if exponent = 1 then format5 |coef| ++ "s"
        else format5 |coef| ++ "s^" ++ toString exponent
      if coef < 0 then get_format_loop order (i + 1) rest (terms ++ ["- " ++ term])
      else if terms.isEmpty then get_format_loop order (i + 1) rest (terms ++ [term])
      else get_format_loop order (i + 1) rest (terms ++ ["+ " ++ term])

/-- `ToyMIMO.get_format`: render a coefficient array and join the rendered
terms with single spaces (`" ".join(terms)`). -/
def get_format (a : List ℚ) : String :=
  String.intercalate " " (get_format_loop (a.length - 1) 0 a [])

/-- The claim's description of the formatter, written independently of the
loop: walk the coefficients in descending exponent order carrying a
first-term flag, omit zero coefficients, render `|c|` to five decimals with
no power suffix for exponent 0, `s` for exponent 1 and `s^n` for `n ≥ 2`,
prefix `- ` for a negative coefficient, `+ ` for a subsequent positive
term, and leave the first term unsigned when positive. -/
def format_terms_spec (order : Nat) : Nat → Bool → List ℚ → List String
  | _, _, [] => []
  | i, first, coef :: rest =>
    if coef = 0 then format_terms_spec order (i + 1) first rest
    else
      let exponent := order - i
      let core :=
        if exponent = 0 then format5 |coef|
        else if exponent = 1 then format5 |coef| ++ "s"
        else format5 |coef| ++ "s^" ++ toString exponent
      (if coef < 0 then "- " ++ core
        else if first then core else "+ " ++ core) ::
        format_terms_spec order (i + 1) false rest

/-- The formatter as the claim describes it. -/
def get_format_spec (a : List ℚ) : String :=
  String.intercalate " " (format_terms_spec (a.length - 1) 0 true a)

end ToyMIMO

namespace ToyMIMO

theorem np_randint_lt {lo hi : Nat} (h : lo < hi) (s : RandState) :
    lo ≤ (np_randint lo hi s).1 ∧ (np_randint lo hi s).1 < hi := by
  constructor
  · exact Nat.le_add_right _ _
  · have hmod : s.istream s.ipos % (hi - lo) < hi - lo :=
      Nat.mod_lt _ (Nat.sub_pos_of_lt h)
    have := Nat.add_lt_add_left hmod lo
    simpa [np_randint, Nat.add_sub_cancel' (Nat.le_of_lt h)] using this

/-- C3: with bound `order_max ≥ 1`, `get_orders` returns
`order_num ∈ [1, order_max]` and `order_den ∈ [order_num, order_max + 1]`
(so `1 ≤ order_num ≤ order_den`: properness, never a zero-order numerator),
and `order_max = 1` forces `order_num = 1` and `order_den ∈ {1, 2}`. -/
theorem get_orders_range (s : RandState) (order_max : Nat) (h : 1 ≤ order_max) :
    1 ≤ ((get_orders s order_max).1).1 ∧
      ((get_orders s order_max).1).1 ≤ order_max ∧
      ((get_orders s order_max).1).1 ≤ ((get_orders s order_max).1).2 ∧
      ((get_orders s order_max).1).2 ≤ order_max + 1 ∧
      (order_max = 1 → ((get_orders s order_max).1).1 = 1 ∧
        (((get_orders s order_max).1).2 = 1 ∨ ((get_orders s order_max).1).2 = 2)) := by
  have h1 : 1 < order_max + 1 := Nat.lt_succ_of_le h
  obtain ⟨hlo, hhi⟩ := np_randint_lt h1 s
  set p := np_randint 1 (order_max + 1) s with hp
  have hon : p.1 ≤ order_max := Nat.lt_succ_iff.mp hhi
  have h2 : p.1 < order_max + 1 + 1 := Nat.lt_succ_of_le (Nat.le_succ_of_le hon)
  obtain ⟨hlo', hhi'⟩ := np_randint_lt h2 p.2
  refine ⟨hlo, hon, hlo', Nat.lt_succ_iff.mp hhi', ?_⟩
  rintro rfl
  have hone : p.1 = 1 := Nat.le_antisymm hon hlo
  refine ⟨hone, ?_⟩
  have hd1 : 1 ≤ (np_randint p.1 (1 + 1 + 1) p.2).1 := hone ▸ hlo'
  have hd2 : (np_randint p.1 (1 + 1 + 1) p.2).1 ≤ 2 := Nat.lt_succ_iff.mp hhi'
  interval_cases hval : (np_randint p.1 (1 + 1 + 1) p.2).1
  · exact Or.inl (by simpa [get_orders, get_random_order, hp] using hval)
  · exact Or.inr (by simpa [get_orders, get_random_order, hp] using hval)

/-- Witness for C3 at a concrete state and the boundary bound
`order_max = 1`. -/
theorem get_orders_range_witness :
    (1 : Nat) ≤ 1 ∧
      ((get_orders ⟨fun k => k, fun _ => 0, 0, 0⟩ 1).1).1 = 1 ∧
      (((get_orders ⟨fun k => k, fun _ => 0, 0, 0⟩ 1).1).2 = 1 ∨
        ((get_orders ⟨fun k => k, fun _ => 0, 0, 0⟩ 1).1).2 = 2) := by
  have h := get_orders_range ⟨fun k => k, fun _ => 0, 0, 0⟩ 1 (le_refl 1)
  exact ⟨le_refl 1, (h.2.2.2.2 rfl).1, (h.2.2.2.2 rfl).2⟩

theorem tf_params_order_bounds (s : RandState) :
    OrderBounds (get_transfer_function_parameters s).1 := by
  have h := get_orders_range s 3 (by norm_num)
  exact ⟨h.1, h.2.1, h.2.2.1, h.2.2.2.1⟩

theorem init_row_order_bounds (n : Nat) :
    ∀ s : RandState, ∀ cell ∈ (init_row n s).1, OrderBounds cell := by
  induction n with
  | zero => intro s cell hc; simp [init_row] at hc
  | succ k ih =>
    intro s cell hc
    simp only [init_row, List.mem_cons] at hc
    rcases hc with h | h
    · exact h ▸ tf_params_order_bounds s
    · exact ih _ cell h

/-- C9: every cell of the grid built by `initialization` satisfies
`1 ≤ order_num ≤ 3` and `order_num ≤ order_den ≤ 4`, because the factory
always calls the order-drawing routine with its default bound
`order_max = 3` (no caller ever supplies a different bound). -/
theorem initialization_order_bounds (nr_inputs nr_outputs : Nat) (s : RandState) :
    ∀ row ∈ (initialization nr_inputs nr_outputs s).1, ∀ cell ∈ row,
      1 ≤ cell.order_num ∧ cell.order_num ≤ 3 ∧
        cell.order_num ≤ cell.order_den ∧ cell.order_den ≤ 4 := by
  unfold initialization
  induction nr_outputs generalizing s with
  | zero => intro row hr; simp [init_rows] at hr
  | succ k ih =>
    intro row hr
    simp only [init_rows, List.mem_cons] at hr
    rcases hr with h | h
    · subst h
      intro cell hc
      exact init_row_order_bounds nr_inputs s cell hc
    · exact ih _ row h

/-- Witness for C9: concrete grid from a concrete stream, concrete cell. -/
theorem initialization_order_bounds_witness :
    ((initialization 1 1 ⟨fun k => k, fun _ => 0, 0, 0⟩).1.headD []) ∈
        (initialization 1 1 ⟨fun k => k, fun _ => 0, 0, 0⟩).1 ∧
      (((initialization 1 1 ⟨fun k => k, fun _ => 0, 0, 0⟩).1.headD []).headD
          ⟨1, 1, [], []⟩) ∈
        ((initialization 1 1 ⟨fun k => k, fun _ => 0, 0, 0⟩).1.headD []) ∧
      (1 ≤ (((initialization 1 1 ⟨fun k => k, fun _ => 0, 0, 0⟩).1.headD []).headD
            ⟨1, 1, [], []⟩).order_num ∧
        (((initialization 1 1 ⟨fun k => k, fun _ => 0, 0, 0⟩).1.headD []).headD
            ⟨1, 1, [], []⟩).order_num ≤ 3 ∧
        (((initialization 1 1 ⟨fun k => k, fun _ => 0, 0, 0⟩).1.headD []).headD
            ⟨1, 1, [], []⟩).order_num ≤
          (((initialization 1 1 ⟨fun k => k, fun _ => 0, 0, 0⟩).1.headD []).headD
            ⟨1, 1, [], []⟩).order_den ∧
        (((initialization 1 1 ⟨fun k => k, fun _ => 0, 0, 0⟩).1.headD []).headD
            ⟨1, 1, [], []⟩).order_den ≤ 4) := by
  have hrow : ((initialization 1 1 ⟨fun k => k, fun _ => 0, 0, 0⟩).1.headD []) ∈
      (initialization 1 1 ⟨fun k => k, fun _ => 0, 0, 0⟩).1 := by
    simp [initialization, init_rows, init_row]
  have hcell : (((initialization 1 1 ⟨fun k => k, fun _ => 0, 0, 0⟩).1.headD []).headD
      ⟨1, 1, [], []⟩) ∈ ((initialization 1 1 ⟨fun k => k, fun _ => 0, 0, 0⟩).1.headD []) := by
    simp [initialization, init_rows, init_row]
  exact ⟨hrow, hcell,
    initialization_order_bounds 1 1 ⟨fun k => k, fun _ => 0, 0, 0⟩ _ hrow _ hcell⟩

theorem evalDesc_foldl_acc (l : List ℂ) (z acc : ℂ) :
    l.foldl (fun a c => a * z + c) acc =
      acc * z ^ l.length + evalDesc l z := by
  induction l generalizing acc with
  | nil => simp [evalDesc]
  | cons c l ih =>
    simp only [List.foldl_cons, List.length_cons, evalDesc] at *
    rw [ih (acc * z + c), ih (0 * z + c)]
    ring

theorem evalDesc_cons (c : ℂ) (l : List ℂ) (z : ℂ) :
    evalDesc (c :: l) z = c * z ^ l.length + evalDesc l z := by
  conv_lhs => rw [evalDesc, List.foldl_cons]
  rw [evalDesc_foldl_acc]
  ring

theorem evalDesc_cons_zero (l : List ℂ) (z : ℂ) :
    evalDesc ((0 : ℂ) :: l) z = evalDesc l z := by
  rw [evalDesc_cons]; ring

theorem evalDesc_append_zeros (l : List ℂ) (k : Nat) (z : ℂ) :
    evalDesc (l ++ List.replicate k 0) z = evalDesc l z * z ^ k := by
  induction k with
  | zero => simp
  | succ n ih =>
    rw [List.replicate_succ', ← List.append_assoc]
    have h1 : evalDesc ((l ++ List.replicate n 0) ++ [0]) z =
        evalDesc (l ++ List.replicate n 0) z * z := by
      simp only [evalDesc, List.foldl_append, List.foldl_cons, List.foldl_nil]
      rw [evalDesc_foldl_acc]
      simp [evalDesc]
    rw [h1, ih]
    ring

theorem evalDesc_map_mul (a : ℂ) (v : List ℂ) (z : ℂ) :
    evalDesc (v.map (fun c => a * c)) z = a * evalDesc v z := by
  suffices h : ∀ acc : ℂ,
      (v.map (fun c => a * c)).foldl (fun x c => x * z + c) (a * acc) =
        a * v.foldl (fun x c => x * z + c) acc by
    have h0 := h 0
    simpa [evalDesc] using h0
  induction v with
  | nil => intro acc; simp
  | cons c v ih =>
    intro acc
    simp only [List.map_cons, List.foldl_cons]
    have harg : (a * acc) * z + a * c = a * (acc * z + c) := by ring
    rw [harg]
    exact ih (acc * z + c)

theorem evalDesc_zipWith_add (x : List ℂ) :
    ∀ y : List ℂ, x.length = y.length → ∀ z : ℂ,
      evalDesc (List.zipWith (· + ·) x y) z = evalDesc x z + evalDesc y z := by
  suffices hgen : ∀ y : List ℂ, x.length = y.length → ∀ (z acc₁ acc₂ : ℂ),
      (List.zipWith (· + ·) x y).foldl (fun a c => a * z + c) (acc₁ + acc₂) =
        x.foldl (fun a c => a * z + c) acc₁ +
          y.foldl (fun a c => a * z + c) acc₂ by
    intro y h z
    have h0 := hgen y h z 0 0
    simpa [evalDesc] using h0
  induction x with
  | nil =>
    intro y h z acc₁ acc₂
    cases y with
    | nil => simp
    | cons _ _ => simp at h
  | cons c x ih =>
    intro y h z acc₁ acc₂
    cases y with
    | nil => simp at h
    | cons d y =>
      simp only [List.zipWith_cons_cons, List.foldl_cons]
      have harg : (acc₁ + acc₂) * z + (c + d) =
          (acc₁ * z + c) + (acc₂ * z + d) := by ring
      rw [harg]
      exact ih y (by simpa using h) z _ _

theorem convolve_length {R : Type} [CommRing R] (v : List R) :
    ∀ a : List R, a ≠ [] → (convolve a v).length = a.length + v.length - 1
  | [], h => absurd rfl h
  | [a0], _ => by simp [convolve]
  | a0 :: a1 :: a, _ => by
    have ih := convolve_length v (a1 :: a) (by simp)
    simp only [convolve, List.length_zipWith, List.length_cons, List.length_append,
      List.length_map, List.length_replicate, ih]
    omega

theorem convolve_eval (v : List ℂ) (z : ℂ) :
    ∀ a : List ℂ, evalDesc (convolve a v) z = evalDesc a z * evalDesc v z
  | [] => by simp [convolve, evalDesc]
  | [a0] => by
    rw [convolve, evalDesc_map_mul]
    simp [evalDesc]
  | a0 :: a1 :: a => by
    have ih := convolve_eval v z (a1 :: a)
    have hlen : (v.map (fun c => a0 * c) ++ List.replicate (a.length + 1) 0).length =
        ((0 : ℂ) :: convolve (a1 :: a) v).length := by
      rw [List.length_cons, convolve_length v (a1 :: a) (by simp)]
      simp only [List.length_append, List.length_map, List.length_replicate,
        List.length_cons]
      omega
    rw [convolve, evalDesc_zipWith_add _ _ hlen z, evalDesc_append_zeros,
      evalDesc_map_mul, evalDesc_cons_zero, ih, evalDesc_cons a0 (a1 :: a) z,
      evalDesc_cons a1 a z]
    simp only [List.length_cons]
    ring

theorem np_poly_eval (roots : List ℂ) (z : ℂ) :
    evalDesc (np_poly roots) z = (roots.map (fun r => z - r)).prod := by
  suffices hgen : ∀ init : List ℂ,
      evalDesc (roots.foldl (fun a r => convolve a [1, -r]) init) z =
        evalDesc init z * (roots.map (fun r => z - r)).prod by
    have h1 := hgen [1]
    simpa [np_poly, evalDesc] using h1
  induction roots with
  | nil => intro init; simp
  | cons r rs ih =>
    intro init
    simp only [List.foldl_cons, List.map_cons, List.prod_cons]
    rw [ih (convolve init [1, -r]), convolve_eval]
    have hlin : evalDesc [1, -r] z = z - r := by
      simp [evalDesc]; ring
    rw [hlin]
    ring

theorem map_ratCast_zipWith_add :
    ∀ x y : List ℚ, (List.zipWith (· + ·) x y).map (fun q : ℚ => (q : ℂ)) =
      List.zipWith (· + ·) (x.map (fun q : ℚ => (q : ℂ))) (y.map (fun q : ℚ => (q : ℂ)))
  | [], _ => by simp
  | _ :: _, [] => by simp
  | c :: x, d :: y => by
    simp only [List.zipWith_cons_cons, List.map_cons, Rat.cast_add]
    rw [map_ratCast_zipWith_add x y]

theorem map_ratCast_scale (a0 : ℚ) (v : List ℚ) :
    (v.map (fun c => a0 * c)).map (fun q : ℚ => (q : ℂ)) =
      (v.map (fun q : ℚ => (q : ℂ))).map (fun c => (a0 : ℂ) * c) := by
  simp only [List.map_map]
  apply List.map_congr_left
  intro c _
  simp [Rat.cast_mul]

theorem map_ratCast_convolve (v : List ℚ) :
    ∀ a : List ℚ, (convolve a v).map (fun q : ℚ => (q : ℂ)) =
      convolve (a.map (fun q : ℚ => (q : ℂ))) (v.map (fun q : ℚ => (q : ℂ)))
  | [] => by simp [convolve]
  | [a0] => by
    simp only [convolve, List.map_cons, List.map_nil]
    exact map_ratCast_scale a0 v
  | a0 :: a1 :: a => by
    have ih := map_ratCast_convolve v (a1 :: a)
    simp only [convolve, List.map_cons]
    rw [map_ratCast_zipWith_add, List.map_append, List.map_replicate,
      map_ratCast_scale, List.map_cons, ih]
    simp [List.length_map]

theorem map_ratCast_np_poly (roots : List ℚ) :
    (np_poly roots).map (fun q : ℚ => (q : ℂ)) =
      np_poly (roots.map (fun q : ℚ => (q : ℂ))) := by
  suffices hgen : ∀ init : List ℚ,
      (roots.foldl (fun a r => convolve a [1, -r]) init).map (fun q : ℚ => (q : ℂ)) =
        (roots.map (fun q : ℚ => (q : ℂ))).foldl (fun a r => convolve a [1, -r])
          (init.map (fun q : ℚ => (q : ℂ))) by
    have h1 := hgen [1]
    simpa [np_poly] using h1
  induction roots with
  | nil => intro init; simp
  | cons r rs ih =>
    intro init
    simp only [List.foldl_cons, List.map_cons]
    rw [ih (convolve init [1, -r]), map_ratCast_convolve]
    congr 2
    simp [Rat.cast_neg]

theorem np_uniform_mem_range (lo hi : ℚ) (hle : lo ≤ hi) :
    ∀ (n : Nat) (s : RandState), (∀ k, 0 ≤ s.rstream k ∧ s.rstream k ≤ 1) →
      ∀ x ∈ (np_uniform lo hi n s).1, lo ≤ x ∧ x ≤ hi := by
  intro n
  induction n with
  | zero => intro s _ x hx; simp [np_uniform] at hx
  | succ m ih =>
    intro s hs x hx
    simp only [np_uniform, List.mem_cons] at hx
    rcases hx with h | h
    · subst h
      obtain ⟨h0, h1⟩ := hs s.rpos
      constructor
      · have hge : 0 ≤ (hi - lo) * s.rstream s.rpos :=
          mul_nonneg (by linarith) h0
        simp only [np_uniform_one]
        linarith
      · have hle' : (hi - lo) * s.rstream s.rpos ≤ (hi - lo) * 1 :=
          mul_le_mul_of_nonneg_left h1 (by linarith)
        simp only [np_uniform_one]
        linarith
    · exact ih (np_uniform_one lo hi s).2 (fun k => hs k) x h

/-- C2: for every draw stream, every complex root of the denominator
polynomial produced by `get_den` has strictly negative real part: the
coefficients are those of the monic polynomial whose roots are the negated
magnitudes drawn from `[0.1, 5.0]`, so stability holds by construction for
all draws, with no rejection sampling. -/
theorem get_den_roots_stable (order : Nat) (s : RandState)
    (hs : UnitDraws s) (z : ℂ)
    (hz : evalDesc ((get_den order s).1.map (fun q : ℚ => (q : ℂ))) z = 0) :
    z.re < 0 := by
  have hmem := np_uniform_mem_range (1/10) 5 (by norm_num) order s hs
  rw [get_den] at hz
  simp only at hz
  rw [map_ratCast_np_poly, np_poly_eval, List.prod_eq_zero_iff] at hz
  simp only [List.map_map, List.mem_map, Function.comp] at hz
  obtain ⟨m, hm, hzero⟩ := hz
  obtain ⟨hlo, _⟩ := hmem m hm
  have hz_eq : z = ((-m : ℚ) : ℂ) := by linear_combination hzero
  rw [hz_eq]
  simp only [Rat.cast_neg, Complex.neg_re, Complex.ratCast_re]
  have hq0 : (0 : ℚ) < m := by linarith
  have hr0 : (0 : ℝ) < (m : ℝ) := by exact_mod_cast hq0
  linarith

/-- Witness for C2: the concrete all-zero draw stream with one pole draws
the magnitude `0.1`; the root `-0.1` of the resulting denominator has
negative real part. -/
theorem get_den_roots_stable_witness :
    UnitDraws ⟨fun k => k, fun _ => 0, 0, 0⟩ ∧
      evalDesc ((get_den 1 ⟨fun k => k, fun _ => 0, 0, 0⟩).1.map (fun q : ℚ => (q : ℂ)))
        (-(1/10) : ℂ) = 0 ∧
      ((-(1/10) : ℂ)).re < 0 := by
  have hs : UnitDraws ⟨fun k => k, fun _ => 0, 0, 0⟩ := by
    intro k; constructor <;> norm_num
  have hz : evalDesc ((get_den 1 ⟨fun k => k, fun _ => 0, 0, 0⟩).1.map
      (fun q : ℚ => (q : ℂ))) (-(1/10) : ℂ) = 0 := by
    norm_num [get_den, np_uniform, np_uniform_one, np_poly, convolve, evalDesc]
  exact ⟨hs, hz, get_den_roots_stable 1 ⟨fun k => k, fun _ => 0, 0, 0⟩ hs _ hz⟩

theorem AgreeUpTo.mono {s₁ s₂ : RandState} {I R I' R' : Nat}
    (h : AgreeUpTo s₁ s₂ I R) (hI : I' ≤ I) (hR : R' ≤ R) :
    AgreeUpTo s₁ s₂ I' R' :=
  ⟨h.1, h.2.1, fun k hk => h.2.2.1 k (by omega), fun k hk => h.2.2.2 k (by omega)⟩

theorem np_randint_agree (lo hi : Nat) {s₁ s₂ : RandState} {I R : Nat}
    (h : AgreeUpTo s₁ s₂ (I + 1) R) :
    (np_randint lo hi s₁).1 = (np_randint lo hi s₂).1 ∧
      AgreeUpTo (np_randint lo hi s₁).2 (np_randint lo hi s₂).2 I R := by
  obtain ⟨hip, hrp, hia, hra⟩ := h
  have hv : s₁.istream s₁.ipos = s₂.istream s₂.ipos := by
    rw [← hip]; exact hia s₁.ipos (by omega)
  refine ⟨by simp only [np_randint]; rw [hv], ?_, ?_, ?_, ?_⟩
  · simp only [np_randint]; rw [hip]
  · simp only [np_randint]; exact hrp
  · intro k hk
    simp only [np_randint] at hk ⊢
    exact hia k (by omega)
  · intro k hk
    simp only [np_randint] at hk ⊢
    exact hra k (by omega)

theorem np_uniform_one_agree (lo hi : ℚ) {s₁ s₂ : RandState} {I R : Nat}
    (h : AgreeUpTo s₁ s₂ I (R + 1)) :
    (np_uniform_one lo hi s₁).1 = (np_uniform_one lo hi s₂).1 ∧
      AgreeUpTo (np_uniform_one lo hi s₁).2 (np_uniform_one lo hi s₂).2 I R := by
  obtain ⟨hip, hrp, hia, hra⟩ := h
  have hv : s₁.rstream s₁.rpos = s₂.rstream s₂.rpos := by
    rw [← hrp]; exact hra s₁.rpos (by omega)
  refine ⟨by simp only [np_uniform_one]; rw [hv], ?_, ?_, ?_, ?_⟩
  · simp only [np_uniform_one]; exact hip
  · simp only [np_uniform_one]; rw [hrp]
  · intro k hk
    simp only [np_uniform_one] at hk ⊢
    exact hia k (by omega)
  · intro k hk
    simp only [np_uniform_one] at hk ⊢
    exact hra k (by omega)

theorem np_uniform_agree (lo hi : ℚ) :
    ∀ (n : Nat) {s₁ s₂ : RandState} {I R : Nat},
      AgreeUpTo s₁ s₂ I (n + R) →
      (np_uniform lo hi n s₁).1 = (np_uniform lo hi n s₂).1 ∧
        AgreeUpTo (np_uniform lo hi n s₁).2 (np_uniform lo hi n s₂).2 I R := by
  intro n
  induction n with
  | zero =>
    intro s₁ s₂ I R h
    exact ⟨rfl, by simpa using h⟩
  | succ m ih =>
    intro s₁ s₂ I R h
    have h' : AgreeUpTo s₁ s₂ I ((m + R) + 1) := h.mono (le_refl I) (by omega)
    obtain ⟨hv, hs⟩ := np_uniform_one_agree lo hi h'
    obtain ⟨hvs, hss⟩ := ih hs
    simp only [np_uniform]
    exact ⟨by rw [hv, hvs], hss⟩

theorem get_orders_agree (order_max : Nat) {s₁ s₂ : RandState} {I R : Nat}
    (h : AgreeUpTo s₁ s₂ (I + 2) R) :
    (get_orders s₁ order_max).1 = (get_orders s₂ order_max).1 ∧
      AgreeUpTo (get_orders s₁ order_max).2 (get_orders s₂ order_max).2 I R := by
  have h' : AgreeUpTo s₁ s₂ ((I + 1) + 1) R := h.mono (by omega) (le_refl R)
  obtain ⟨hv, hs⟩ := np_randint_agree 1 (order_max + 1) h'
  obtain ⟨hv2, hs2⟩ :=
    np_randint_agree (np_randint 1 (order_max + 1) s₁).1 (order_max + 1 + 1) hs
  simp only [get_orders, get_random_order]
  constructor
  · rw [← hv, hv2]
  · rw [← hv]
    exact hs2

theorem get_num_agree (order : Nat) {s₁ s₂ : RandState} {I R : Nat}
    (h : AgreeUpTo s₁ s₂ I ((order + 1) + R)) :
    (get_num order s₁).1 = (get_num order s₂).1 ∧
      AgreeUpTo (get_num order s₁).2 (get_num order s₂).2 I R :=
  np_uniform_agree (-1) 1 (order + 1) h

theorem get_den_agree (order : Nat) {s₁ s₂ : RandState} {I R : Nat}
    (h : AgreeUpTo s₁ s₂ I (order + R)) :
    (get_den order s₁).1 = (get_den order s₂).1 ∧
      AgreeUpTo (get_den order s₁).2 (get_den order s₂).2 I R := by
  obtain ⟨hv, hs⟩ := np_uniform_agree (1/10) 5 order h
  simp only [get_den]
  exact ⟨by rw [hv], hs⟩

theorem tf_params_agree {s₁ s₂ : RandState} {I R : Nat}
    (h : AgreeUpTo s₁ s₂ (I + 2) (R + 8)) :
    (get_transfer_function_parameters s₁).1 = (get_transfer_function_parameters s₂).1 ∧
      AgreeUpTo (get_transfer_function_parameters s₁).2
        (get_transfer_function_parameters s₂).2 I R := by
  obtain ⟨hords, hs⟩ := get_orders_agree 3 h
  have hbounds := get_orders_range s₁ 3 (by norm_num)
  have hon : (get_orders s₁).1.1 ≤ 3 := hbounds.2.1
  have hod : (get_orders s₁).1.2 ≤ 4 := hbounds.2.2.2.1
  simp only [get_transfer_function_parameters]
  rw [← hords]
  have hnwin : AgreeUpTo (get_orders s₁).2 (get_orders s₂).2 I
      (((get_orders s₁).1.1 + 1) + (R + 4)) := hs.mono (le_refl I) (by omega)
  obtain ⟨hnv, hns⟩ := get_num_agree (get_orders s₁).1.1 hnwin
  have hdwin : AgreeUpTo (get_num (get_orders s₁).1.1 (get_orders s₁).2).2
      (get_num (get_orders s₁).1.1 (get_orders s₂).2).2 I
      ((get_orders s₁).1.2 + R) := hns.mono (le_refl I) (by omega)
  obtain ⟨hdv, hds⟩ := get_den_agree (get_orders s₁).1.2 hdwin
  exact ⟨by rw [hnv, hdv], hds⟩

theorem init_row_agree :
    ∀ (c : Nat) {s₁ s₂ : RandState} {I R : Nat},
      AgreeUpTo s₁ s₂ (2 * c + I) (8 * c + R) →
      (init_row c s₁).1 = (init_row c s₂).1 ∧
        AgreeUpTo (init_row c s₁).2 (init_row c s₂).2 I R := by
  intro c
  induction c with
  | zero =>
    intro s₁ s₂ I R h
    exact ⟨rfl, by simpa using h⟩
  | succ m ih =>
    intro s₁ s₂ I R h
    have h' : AgreeUpTo s₁ s₂ ((2 * m + I) + 2) ((8 * m + R) + 8) :=
      h.mono (by omega) (by omega)
    obtain ⟨hp, hs⟩ := tf_params_agree h'
    obtain ⟨hq, hs'⟩ := ih hs
    simp only [init_row]
    exact ⟨by rw [hp, hq], hs'⟩

theorem init_rows_agree (n : Nat) :
    ∀ (r : Nat) {s₁ s₂ : RandState} {I R : Nat},
      AgreeUpTo s₁ s₂ (2 * n * r + I) (8 * n * r + R) →
      (init_rows n r s₁).1 = (init_rows n r s₂).1 ∧
        AgreeUpTo (init_rows n r s₁).2 (init_rows n r s₂).2 I R := by
  intro r
  induction r with
  | zero =>
    intro s₁ s₂ I R h
    exact ⟨rfl, by simpa using h⟩
  | succ m ih =>
    intro s₁ s₂ I R h
    have h' : AgreeUpTo s₁ s₂ (2 * n + (2 * n * m + I)) (8 * n + (8 * n * m + R)) :=
      h.mono (le_of_eq (by ring)) (le_of_eq (by ring))
    obtain ⟨hp, hs⟩ := init_row_agree n h'
    obtain ⟨hq, hs'⟩ := ih hs
    simp only [init_rows]
    exact ⟨by rw [hp, hq], hs'⟩

/-- C5 (amended): `initialization` is a deterministic function of the random
draw stream: whenever two generator states sit at the same read positions
and their streams agree on the draws the construction consumes (at most
`2·nr_inputs·nr_outputs` integer draws and `8·nr_inputs·nr_outputs` real
draws), the two produced parameter grids are identical.  In particular two
processes that seed the global generator with the same fixed seed —
obtaining identical streams at position zero — build byte-identical grids. -/
theorem initialization_deterministic (nr_inputs nr_outputs : Nat)
    {s₁ s₂ : RandState}
    (h : AgreeUpTo s₁ s₂ (2 * nr_inputs * nr_outputs) (8 * nr_inputs * nr_outputs)) :
    (initialization nr_inputs nr_outputs s₁).1 =
      (initialization nr_inputs nr_outputs s₂).1 := by
  have h' : AgreeUpTo s₁ s₂ (2 * nr_inputs * nr_outputs + 0)
      (8 * nr_inputs * nr_outputs + 0) := by simpa using h
  exact (init_rows_agree nr_inputs nr_outputs h').1

/-- Witness for C5 (amended): two concrete states whose integer streams
agree only on the consumed prefix (they diverge from position 2 on) still
produce the same `1 × 1` grid. -/
theorem initialization_deterministic_witness :
    AgreeUpTo ⟨fun k => k, fun _ => 0, 0, 0⟩
        ⟨fun k => if k < 2 then k else 99, fun _ => 0, 0, 0⟩
        (2 * 1 * 1) (8 * 1 * 1) ∧
      (initialization 1 1 ⟨fun k => k, fun _ => 0, 0, 0⟩).1 =
        (initialization 1 1 ⟨fun k => k, fun _ => 0, 0, 0⟩ : _).1 ∧
      (initialization 1 1 ⟨fun k => k, fun _ => 0, 0, 0⟩).1 =
        (initialization 1 1 ⟨fun k => if k < 2 then k else 99, fun _ => 0, 0, 0⟩).1 := by
  have hagree : AgreeUpTo ⟨fun k => k, fun _ => 0, 0, 0⟩
      ⟨fun k => if k < 2 then k else 99, fun _ => 0, 0, 0⟩
      (2 * 1 * 1) (8 * 1 * 1) := by
    refine ⟨rfl, rfl, ?_, fun k _ => rfl⟩
    intro k hk
    simp only at hk ⊢
    rw [if_pos (by omega)]
  exact ⟨hagree, rfl, initialization_deterministic 1 1 hagree⟩

/-- Counterexample for C5 as stated: with the module-level global generator
(seeded once at import), two successive runs of `initialization` with the
same `nr_inputs`, `nr_outputs` and order bound do NOT produce identical
parameter grids — the second run continues from the advanced global state
and draws different orders. -/
theorem initialization_reruns_differ :
    (initialization 1 1 ⟨fun k => k, fun _ => 0, 0, 0⟩).1 ≠
      (initialization 1 1 ((initialization 1 1 ⟨fun k => k, fun _ => 0, 0, 0⟩).2)).1 := by
  intro h
  have h2 := congrArg (fun g => ((g.headD []).headD ⟨0, 0, [], []⟩).order_num) h
  simp only [initialization, init_rows, init_row, get_transfer_function_parameters,
    get_orders, get_random_order, np_randint, get_num, get_den, np_uniform,
    np_uniform_one, np_poly, convolve, List.headD] at h2
  norm_num at h2

theorem foldl_zipadd_length (N : Nat) :
    ∀ (rs : List (List ℝ)) (y : List ℝ), y.length = N → (∀ r ∈ rs, r.length = N) →
      (rs.foldl (fun a b => List.zipWith (· + ·) a b) y).length = N := by
  intro rs
  induction rs with
  | nil => intro y hy _; simpa using hy
  | cons r rs ih =>
    intro y hy hr
    simp only [List.foldl_cons]
    exact ih _ (by simp [List.length_zipWith, hy, hr r (by simp)])
      (fun r' hr' => hr r' (by simp [hr']))

theorem responses_length {α : Type} (lsim : α → List ℝ → List ℝ → List ℝ)
    (t_stamp : List ℝ) (N : Nat)
    (hf : ∀ Hc uc, (lsim Hc uc t_stamp).length = t_stamp.length)
    (ht : t_stamp.length = N) :
    ∀ (Hrow : List α) (u : List (List ℝ)),
      ∀ r ∈ List.zipWith (fun Hj uj => lsim Hj uj t_stamp) Hrow u, r.length = N
  | [], u => by simp
  | Hj :: Hrow, [] => by simp
  | Hj :: Hrow, uj :: u => by
    intro r hr
    simp only [List.zipWith_cons_cons, List.mem_cons] at hr
    rcases hr with h | h
    · rw [h, hf, ht]
    · exact responses_length lsim t_stamp N hf ht Hrow u r h

theorem zipWith_take_left {α β γ : Type} (f : α → β → γ) :
    ∀ (l : List α) (l' : List β) (n : Nat), l'.length ≤ n →
      List.zipWith f (l.take n) l' = List.zipWith f l l'
  | [], l', n, _ => by simp
  | a :: l, l', 0, h => by
    have hnil : l' = [] := List.eq_nil_of_length_eq_zero (Nat.le_zero.mp h)
    simp [hnil]
  | a :: l, [], n + 1, _ => by simp
  | a :: l, b :: l', n + 1, h => by
    simp only [List.take_succ_cons, List.zipWith_cons_cons]
    rw [zipWith_take_left f l l' n (by simpa using h)]

theorem excite_dof_loop_eq {α : Type} (lsim : α → List ℝ → List ℝ → List ℝ)
    (t_stamp : List ℝ) (N : Nat)
    (hf : ∀ Hc uc, (lsim Hc uc t_stamp).length = t_stamp.length)
    (ht : t_stamp.length = N) :
    ∀ (u : List (List ℝ)) (H : List α) (y : List ℝ),
      (∀ row ∈ u, row.length = N) → y.length = N → u.length ≤ H.length →
      excite_dof_loop lsim t_stamp u H y =
        some ((List.zipWith (fun Hj uj => lsim Hj uj t_stamp) H u).foldl
          (fun a b => List.zipWith (· + ·) a b) y) := by
  intro u
  induction u with
  | nil => intro H y _ _ _; simp [excite_dof_loop]
  | cons ui urest ih =>
    intro H y hu hy hlen
    cases H with
    | nil => simp at hlen
    | cons Hi Hrest =>
      have hui : ui.length = N := hu ui (by simp)
      have hchan : excite_channel lsim Hi ui t_stamp = some (lsim Hi ui t_stamp) := by
        rw [excite_channel, if_pos (by rw [hui, ht])]
      have hyi : (lsim Hi ui t_stamp).length = N := by rw [hf, ht]
      have hadd : np_add_vec y (lsim Hi ui t_stamp) =
          some (List.zipWith (· + ·) y (lsim Hi ui t_stamp)) := by
        rw [np_add_vec, if_pos (by rw [hyi, hy])]
      simp only [excite_dof_loop, hchan, hadd, List.zipWith_cons_cons, List.foldl_cons]
      exact ih Hrest (List.zipWith (· + ·) y (lsim Hi ui t_stamp))
        (fun r hr => hu r (by simp [hr]))
        (by simp [List.length_zipWith, hy, hyi])
        (by simpa using hlen)

theorem excite_dof_loop_none {α : Type} (lsim : α → List ℝ → List ℝ → List ℝ)
    (t_stamp : List ℝ) (N : Nat)
    (hf : ∀ Hc uc, (lsim Hc uc t_stamp).length = t_stamp.length)
    (ht : t_stamp.length = N) :
    ∀ (u : List (List ℝ)) (H : List α) (y : List ℝ),
      (∀ row ∈ u, row.length = N) → y.length = N → H.length < u.length →
      excite_dof_loop lsim t_stamp u H y = none := by
  intro u
  induction u with
  | nil => intro H y _ _ hlen; simp at hlen
  | cons ui urest ih =>
    intro H y hu hy hlen
    cases H with
    | nil => rfl
    | cons Hi Hrest =>
      have hui : ui.length = N := hu ui (by simp)
      have hchan : excite_channel lsim Hi ui t_stamp = some (lsim Hi ui t_stamp) := by
        rw [excite_channel, if_pos (by rw [hui, ht])]
      have hyi : (lsim Hi ui t_stamp).length = N := by rw [hf, ht]
      have hadd : np_add_vec y (lsim Hi ui t_stamp) =
          some (List.zipWith (· + ·) y (lsim Hi ui t_stamp)) := by
        rw [np_add_vec, if_pos (by rw [hyi, hy])]
      simp only [excite_dof_loop, hchan, hadd]
      exact ih Hrest (List.zipWith (· + ·) y (lsim Hi ui t_stamp))
        (fun r hr => hu r (by simp [hr]))
        (by simp [List.length_zipWith, hy, hyi])
        (by simpa using hlen)

theorem excite_dof_eq {α : Type} (lsim : α → List ℝ → List ℝ → List ℝ)
    (t_stamp : List ℝ) (N : Nat)
    (hf : ∀ Hc uc, (lsim Hc uc t_stamp).length = t_stamp.length)
    (ht : t_stamp.length = N)
    (H : List α) (u : List (List ℝ))
    (hu : ∀ row ∈ u, row.length = N) (hN : (u.headD []).length = N)
    (hlen : u.length ≤ H.length) :
    excite_dof lsim H u t_stamp = some (sum_responses lsim H u t_stamp N) := by
  rw [excite_dof, hN, sum_responses]
  exact excite_dof_loop_eq lsim t_stamp N hf ht u H (List.replicate N 0) hu
    (by simp) hlen

theorem sum_responses_length {α : Type} (lsim : α → List ℝ → List ℝ → List ℝ)
    (t_stamp : List ℝ) (N : Nat)
    (hf : ∀ Hc uc, (lsim Hc uc t_stamp).length = t_stamp.length)
    (ht : t_stamp.length = N) (Hrow : List α) (u : List (List ℝ)) :
    (sum_responses lsim Hrow u t_stamp N).length = N := by
  rw [sum_responses]
  exact foldl_zipadd_length N _ _ (by simp)
    (responses_length lsim t_stamp N hf ht Hrow u)

theorem excite_system_loop_eq {α : Type} (lsim : α → List ℝ → List ℝ → List ℝ)
    (t_stamp : List ℝ) (N : Nat)
    (hf : ∀ Hc uc, (lsim Hc uc t_stamp).length = t_stamp.length)
    (ht : t_stamp.length = N) (u : List (List ℝ))
    (hu : ∀ row ∈ u, row.length = N) (hN : (u.headD []).length = N) :
    ∀ H : List (List α), (∀ Hrow ∈ H, u.length ≤ Hrow.length) →
      excite_system_loop lsim u t_stamp N H =
        some (H.map (fun Hrow => sum_responses lsim Hrow u t_stamp N)) := by
  intro H
  induction H with
  | nil => intro _; simp [excite_system_loop]
  | cons Hrow Hrest ih =>
    intro hH
    have hdof := excite_dof_eq lsim t_stamp N hf ht Hrow u hu hN (hH Hrow (by simp))
    have hslen := sum_responses_length lsim t_stamp N hf ht Hrow u
    have hrest := ih (fun r hr => hH r (by simp [hr]))
    simp only [excite_system_loop, hdof, hslen, hrest, eq_self_iff_true, if_true,
      List.map_cons]

theorem excite_system_eq {α : Type} (lsim : α → List ℝ → List ℝ → List ℝ)
    (t_stamp : List ℝ) (N : Nat)
    (hf : ∀ Hc uc, (lsim Hc uc t_stamp).length = t_stamp.length)
    (ht : t_stamp.length = N) (H : List (List α)) (u : List (List ℝ))
    (hu : ∀ row ∈ u, row.length = N) (hN : (u.headD []).length = N)
    (hH : ∀ Hrow ∈ H, u.length ≤ Hrow.length) :
    excite_system lsim H u t_stamp =
      some (H.map (fun Hrow => sum_responses lsim Hrow u t_stamp N)) := by
  rw [excite_system, hN]
  exact excite_system_loop_eq lsim t_stamp N hf ht u hu hN H hH

/-- C1: for a built system whose grid rows all have `nr_inputs` channels and
an input matrix `U` with exactly `nr_inputs` rows of `N` samples sharing one
time-stamp array of length `N`, `excite_system` succeeds and row `i` of the
result is the element-wise sum over all input columns `j` of the
per-channel zero-initial-state responses `excite_channel(H[i][j], U[j], t)`:
the MIMO response is `nr_outputs × nr_inputs` independent SISO simulations
combined by summation, for every per-channel solver `lsim`. -/
theorem excite_system_superposition {α : Type} (lsim : α → List ℝ → List ℝ → List ℝ)
    (H : List (List α)) (u : List (List ℝ)) (t_stamp : List ℝ) (N nr_inputs : Nat)
    (hf : ∀ Hc uc, (lsim Hc uc t_stamp).length = t_stamp.length)
    (ht : t_stamp.length = N)
    (hrows : ∀ Hrow ∈ H, Hrow.length = nr_inputs)
    (hin : u.length = nr_inputs)
    (hu : ∀ row ∈ u, row.length = N)
    (hN : (u.headD []).length = N) :
    excite_system lsim H u t_stamp =
      some (H.map (fun Hrow => sum_responses lsim Hrow u t_stamp N)) :=
  excite_system_eq lsim t_stamp N hf ht H u hu hN
    (fun Hrow hr => by rw [hin, ← hrows Hrow hr])

/-- Witness for C1 at a concrete 1×2 system, a 2×2 input matrix and a
2-sample time base. -/
theorem excite_system_superposition_witness :
    excite_system (fun (_ : Unit) (_ : List ℝ) (tc : List ℝ) => tc)
        [[(), ()]] [[1, 2], [3, 4]] [5, 6] =
      some (([[(), ()]] : List (List Unit)).map
        (fun Hrow => sum_responses (fun (_ : Unit) (_ : List ℝ) (tc : List ℝ) => tc)
          Hrow [[1, 2], [3, 4]] [5, 6] 2)) :=
  excite_system_superposition _ _ _ _ 2 2 (fun _ _ => rfl) rfl
    (by intro Hrow hr; fin_cases hr; rfl) rfl
    (by intro row hr; fin_cases hr <;> rfl) rfl

/-- C10: if `U` has fewer rows `m` than `nr_inputs`, no error is raised:
`excite_system` succeeds and each output row is silently computed as the sum
of the responses of only the first `m` transfer functions of that grid row
— the per-row summation iterates over the rows of `U`, ignoring the
remaining `nr_inputs - m` channels. -/
theorem excite_system_partial_rows {α : Type} (lsim : α → List ℝ → List ℝ → List ℝ)
    (H : List (List α)) (u : List (List ℝ)) (t_stamp : List ℝ) (N nr_inputs : Nat)
    (hf : ∀ Hc uc, (lsim Hc uc t_stamp).length = t_stamp.length)
    (ht : t_stamp.length = N)
    (hrows : ∀ Hrow ∈ H, Hrow.length = nr_inputs)
    (hin : u.length < nr_inputs)
    (hu : ∀ row ∈ u, row.length = N)
    (hN : (u.headD []).length = N) :
    excite_system lsim H u t_stamp =
      some (H.map (fun Hrow =>
        sum_responses lsim (Hrow.take u.length) u t_stamp N)) := by
  rw [excite_system_eq lsim t_stamp N hf ht H u hu hN
    (fun Hrow hr => by rw [hrows Hrow hr]; exact Nat.le_of_lt hin)]
  congr 1
  apply List.map_congr_left
  intro Hrow _
  rw [sum_responses, sum_responses,
    zipWith_take_left _ Hrow u u.length (le_refl u.length)]

/-- Witness for C10: a single input row fed to a 1×2 grid silently yields
the single-channel response. -/
theorem excite_system_partial_rows_witness :
    excite_system (fun (_ : Unit) (_ : List ℝ) (tc : List ℝ) => tc)
        [[(), ()]] [[1, 2]] [5, 6] =
      some (([[(), ()]] : List (List Unit)).map
        (fun Hrow => sum_responses (fun (_ : Unit) (_ : List ℝ) (tc : List ℝ) => tc)
          (Hrow.take 1) [[1, 2]] [5, 6] 2)) :=
  excite_system_partial_rows _ _ _ _ 2 2 (fun _ _ => rfl) rfl
    (by intro Hrow hr; fin_cases hr; rfl) (by norm_num)
    (by intro row hr; fin_cases hr; rfl) rfl

/-- Counterexample for C4 as stated: an input matrix with one row fed to a
built system with `nr_inputs = 2` raises no error at all — the call returns
an output instead of failing fast with a typed dimension-mismatch error
before simulation. -/
theorem excite_system_row_mismatch_succeeds :
    (1 : Nat) ≠ 2 ∧
      (excite_system (fun (_ : Unit) (uc : List ℝ) (_ : List ℝ) => uc)
        [[(), ()]] [[0]] [0]).isSome = true :=
  ⟨by decide, rfl⟩

/-- C4 (amended): `excite_system` performs no input validation of its own.
With a well-shaped shared time base, an input matrix with at most
`nr_inputs` rows is accepted without any error (fewer rows silently yield
partial sums), while more rows than `nr_inputs` fail only inside the
per-row loop, as an index error when `H[i]` is read past the end of a grid
row — not as a typed dimension-mismatch check before simulation begins.
(Shape errors for `len(t) ≠ U.cols` arise inside the external solver during
the first per-channel simulation, and calling `excite` before `build` is an
untyped attribute error; the core raises no typed failures.) -/
theorem excite_system_unvalidated {α : Type} (lsim : α → List ℝ → List ℝ → List ℝ)
    (H : List (List α)) (u : List (List ℝ)) (t_stamp : List ℝ) (N nr_inputs : Nat)
    (hf : ∀ Hc uc, (lsim Hc uc t_stamp).length = t_stamp.length)
    (ht : t_stamp.length = N)
    (hrows : ∀ Hrow ∈ H, Hrow.length = nr_inputs)
    (hu : ∀ row ∈ u, row.length = N)
    (hN : (u.headD []).length = N) :
    (u.length ≤ nr_inputs → (excite_system lsim H u t_stamp).isSome = true) ∧
      (nr_inputs < u.length → H ≠ [] → excite_system lsim H u t_stamp = none) := by
  constructor
  · intro hle
    rw [excite_system_eq lsim t_stamp N hf ht H u hu hN
      (fun Hrow hr => by rw [hrows Hrow hr]; exact hle)]
    rfl
  · intro hgt hne
    cases H with
    | nil => exact absurd rfl hne
    | cons Hrow Hrest =>
      have hdof : excite_dof lsim Hrow u t_stamp = none := by
        rw [excite_dof, hN]
        exact excite_dof_loop_none lsim t_stamp N hf ht u Hrow _ hu (by simp)
          (by rw [hrows Hrow (by simp)]; exact hgt)
      rw [excite_system, hN]
      simp only [excite_system_loop, hdof]

/-- Witness for C4 (amended) at a concrete 1×2 system: one input row is
accepted, three input rows hit the in-loop index error. -/
theorem excite_system_unvalidated_witness :
    (([[(0 : ℝ)]] : List (List ℝ)).length ≤ 2 →
        (excite_system (fun (_ : Unit) (_ : List ℝ) (tc : List ℝ) => tc)
          [[(), ()]] [[0]] [0]).isSome = true) ∧
      (2 < ([[(0 : ℝ)]] : List (List ℝ)).length →
        ([[(), ()]] : List (List Unit)) ≠ [] →
        excite_system (fun (_ : Unit) (_ : List ℝ) (tc : List ℝ) => tc)
          [[(), ()]] [[0]] [0] = none) := by
  exact excite_system_unvalidated (fun (_ : Unit) (_ : List ℝ) (tc : List ℝ) => tc)
    [[(), ()]] [[(0 : ℝ)]] [(0 : ℝ)] 1 2 (fun _ _ => rfl) rfl
    (by intro Hrow hr; fin_cases hr; rfl)
    (by intro row hr; fin_cases hr; rfl) rfl

theorem getD_replicate_zero : ∀ n j : Nat, (List.replicate n (0 : ℝ)).getD j 0 = 0
  | 0, _ => by simp
  | n + 1, 0 => by simp [List.replicate_succ]
  | n + 1, j + 1 => by
    simp only [List.replicate_succ, List.getD_cons_succ]
    exact getD_replicate_zero n j

theorem zipWith_add_replicate_zero : ∀ n : Nat,
    List.zipWith (· + ·) (List.replicate n (0 : ℝ)) (List.replicate n 0) =
      List.replicate n 0
  | 0 => rfl
  | n + 1 => by
    simp only [List.replicate_succ, List.zipWith_cons_cons, add_zero]
    rw [zipWith_add_replicate_zero n]

theorem foldl_zeros (N : Nat) :
    ∀ rs : List (List ℝ), (∀ r ∈ rs, r = List.replicate N 0) →
      rs.foldl (fun a b => List.zipWith (· + ·) a b) (List.replicate N 0) =
        List.replicate N 0
  | [], _ => rfl
  | r :: rs, h => by
    simp only [List.foldl_cons]
    rw [h r (by simp), zipWith_add_replicate_zero]
    exact foldl_zeros N rs (fun x hx => h x (by simp [hx]))

theorem lsim_linear_zero {α : Type} (K : α → List ℝ → Nat → Nat → ℝ) (Hc : α)
    (t_stamp : List ℝ) (n : Nat) :
    lsim_linear K Hc (List.replicate n 0) t_stamp =
      List.replicate t_stamp.length 0 := by
  rw [lsim_linear]
  have h1 : ∀ k : Nat, (∑ j in Finset.range (List.replicate n (0 : ℝ)).length,
      (if j ≤ k then K Hc t_stamp k j * (List.replicate n (0 : ℝ)).getD j 0
        else 0)) = 0 := by
    intro k
    apply Finset.sum_eq_zero
    intro j _
    rw [getD_replicate_zero]
    simp
  simp only [h1]
  rw [List.map_const', List.length_range]

theorem responses_zero {α : Type} (K : α → List ℝ → Nat → Nat → ℝ)
    (t_stamp : List ℝ) :
    ∀ (Hrow : List α) (u : List (List ℝ)),
      (∀ uj ∈ u, uj = List.replicate t_stamp.length 0) →
      ∀ r ∈ List.zipWith (fun Hj uj => lsim_linear K Hj uj t_stamp) Hrow u,
        r = List.replicate t_stamp.length 0
  | [], u, _ => by simp
  | Hj :: Hrow, [], _ => by simp
  | Hj :: Hrow, uj :: u, hu => by
    intro r hr
    simp only [List.zipWith_cons_cons, List.mem_cons] at hr
    rcases hr with h | h
    · rw [h, hu uj (by simp), lsim_linear_zero]
    · exact responses_zero K t_stamp Hrow u (fun x hx => hu x (by simp [hx])) r h

/-- C7: for every built grid (rows at least `nr_inputs ≥ 1` channels wide)
and every time-stamp array, exciting with the all-zero input matrix yields
the output that is exactly zero at every sample: with zero initial state,
every per-channel response is a weighted sum of zero input samples, and the
per-row superposition of zero vectors is zero.  The 1×1 system
`H(s) = 1/(s+1)` is the witness instance. -/
theorem excite_system_zero_input {α : Type} (K : α → List ℝ → Nat → Nat → ℝ)
    (H : List (List α)) (t_stamp : List ℝ) (nr_inputs : Nat)
    (hpos : 0 < nr_inputs)
    (hrows : ∀ Hrow ∈ H, nr_inputs ≤ Hrow.length) :
    excite_system (lsim_linear K) H
        (List.replicate nr_inputs (List.replicate t_stamp.length 0)) t_stamp =
      some (List.replicate H.length (List.replicate t_stamp.length 0)) := by
  have hf : ∀ Hc uc, (lsim_linear K Hc uc t_stamp).length = t_stamp.length := by
    intro Hc uc; simp [lsim_linear]
  have hu : ∀ row ∈ List.replicate nr_inputs (List.replicate t_stamp.length (0 : ℝ)),
      row.length = t_stamp.length := by
    intro row hr
    rw [List.eq_of_mem_replicate hr]
    simp
  have hN : ((List.replicate nr_inputs
      (List.replicate t_stamp.length (0 : ℝ))).headD []).length = t_stamp.length := by
    cases nr_inputs with
    | zero => exact absurd hpos (by simp)
    | succ m => simp [List.replicate_succ]
  have hle : ∀ Hrow ∈ H,
      (List.replicate nr_inputs (List.replicate t_stamp.length (0 : ℝ))).length ≤
        Hrow.length := by
    intro Hrow hr
    simpa using hrows Hrow hr
  rw [excite_system_eq (lsim_linear K) t_stamp t_stamp.length hf rfl H _ hu hN hle]
  have hmap : H.map (fun Hrow => sum_responses (lsim_linear K) Hrow
      (List.replicate nr_inputs (List.replicate t_stamp.length 0)) t_stamp
      t_stamp.length) = H.map (fun _ => List.replicate t_stamp.length (0 : ℝ)) := by
    apply List.map_congr_left
    intro Hrow _
    rw [sum_responses]
    apply foldl_zeros
    exact responses_zero K t_stamp Hrow _ (fun x hx => List.eq_of_mem_replicate hx)
  rw [hmap, List.map_const']

/-- Witness for C7: the 1×1 system `H(s) = 1/(s+1)` (numerator `[1]`,
denominator `[1, 1]`) over a two-sample time base with zero input. -/
theorem excite_system_zero_input_witness :
    (0 : Nat) < 1 ∧
      excite_system
        (lsim_linear (fun (_ : TFParams) (_ : List ℝ) (_ _ : Nat) => (1 : ℝ)))
        [[TFParams.mk 1 1 [1] [1, 1]]]
        (List.replicate 1 (List.replicate ([(0 : ℝ), 1] : List ℝ).length 0))
        [(0 : ℝ), 1] =
      some (List.replicate
        ([[TFParams.mk 1 1 [1] [1, 1]]] : List (List TFParams)).length
        (List.replicate ([(0 : ℝ), 1] : List ℝ).length 0)) :=
  ⟨by decide,
    excite_system_zero_input _ _ _ 1 (by decide)
      (by intro Hrow hr; fin_cases hr; simp)⟩

theorem list_sum_range (f : Nat → ℂ) : ∀ n : Nat,
    ((List.range n).map f).sum = ∑ i in Finset.range n, f i
  | 0 => by simp
  | n + 1 => by
    rw [List.range_succ, List.map_append, List.sum_append, Finset.sum_range_succ,
      list_sum_range f n]
    simp

theorem getD_map_range (f : Nat → ℂ) (M k : Nat) (hk : k < M) :
    ((List.range M).map f).getD k 0 = f k := by
  rw [List.getD_eq_getElem?_getD, List.getElem?_map, List.getElem?_range hk]
  rfl

theorem root_pow_sum (ω ω' : ℂ) (N : Nat) (hωω' : ω * ω' = 1) (hω1 : ω ^ N = 1)
    (hprim : ∀ j, 0 < j → j < N → ω ^ j ≠ 1) (m n : Nat) (hm : m < N) (hn : n < N) :
    ∑ k in Finset.range N, (ω ^ m * ω' ^ n) ^ k = if m = n then (N : ℂ) else 0 := by
  by_cases hmn : m = n
  · subst hmn
    have hq : ω ^ m * ω' ^ m = 1 := by rw [← mul_pow, hωω', one_pow]
    simp [hq]
  · have hω'N : ω' ^ N = 1 := by
      have h1 : ω ^ N * ω' ^ N = 1 := by rw [← mul_pow, hωω', one_pow]
      rw [hω1, one_mul] at h1
      exact h1
    have hqN : (ω ^ m * ω' ^ n) ^ N = 1 := by
      rw [mul_pow, ← pow_mul, ← pow_mul, mul_comm m N, mul_comm n N, pow_mul, pow_mul,
        hω1, hω'N]
      simp
    have hq1 : ω ^ m * ω' ^ n ≠ 1 := by
      rcases Nat.lt_or_ge m n with hlt | hge
      · have hsplitn : ω' ^ n = ω' ^ m * ω' ^ (n - m) := by
          rw [← pow_add]
          congr 1
          omega
        have hmm : ω ^ m * ω' ^ m = 1 := by rw [← mul_pow, hωω', one_pow]
        rw [hsplitn, ← mul_assoc, hmm, one_mul]
        intro hq
        have h2 : ω ^ (n - m) * ω' ^ (n - m) = 1 := by rw [← mul_pow, hωω', one_pow]
        rw [hq, mul_one] at h2
        exact hprim (n - m) (by omega) (by omega) h2
      · have hsplitm : ω ^ m = ω ^ (m - n) * ω ^ n := by
          rw [← pow_add]
          congr 1
          omega
        have hnn : ω ^ n * ω' ^ n = 1 := by rw [← mul_pow, hωω', one_pow]
        rw [hsplitm, mul_assoc, hnn, mul_one]
        exact hprim (m - n) (by omega) (by omega)
    rw [if_neg hmn, geom_sum_eq hq1, hqN]
    simp

theorem idft_dft (ω ω' invN : ℂ) (N : Nat)
    (hωω' : ω * ω' = 1) (hω1 : ω ^ N = 1)
    (hprim : ∀ j, 0 < j → j < N → ω ^ j ≠ 1)
    (hinv : invN * (N : ℂ) = 1)
    (x : List ℂ) (hx : x.length = N) :
    idft ω' invN (dft ω x) = x := by
  have hdlen : (dft ω x).length = N := by simp [dft, hx]
  apply List.ext_getElem (by simp [idft, hdlen, hx])
  intro n h1 h2
  have hn : n < N := hx ▸ h2
  have hgetD : ∀ k, k < N → (dft ω x).getD k 0 =
      ∑ m in Finset.range x.length, x.getD m 0 * ω ^ (k * m) := by
    intro k hk
    rw [dft]
    rw [getD_map_range _ _ k (by rw [hx]; exact hk)]
    exact list_sum_range _ _
  simp only [idft, List.getElem_map, List.getElem_range, hdlen]
  rw [list_sum_range]
  rw [Finset.sum_congr rfl (fun k hk => by
    rw [hgetD k (Finset.mem_range.mp hk), hx])]
  have hswap : ∑ k in Finset.range N,
      (∑ m in Finset.range N, x.getD m 0 * ω ^ (k * m)) * ω' ^ (k * n) =
      ∑ m in Finset.range N, x.getD m 0 *
        ∑ k in Finset.range N, (ω ^ m * ω' ^ n) ^ k := by
    calc ∑ k in Finset.range N,
        (∑ m in Finset.range N, x.getD m 0 * ω ^ (k * m)) * ω' ^ (k * n)
        = ∑ k in Finset.range N, ∑ m in Finset.range N,
            x.getD m 0 * ω ^ (k * m) * ω' ^ (k * n) := by
          apply Finset.sum_congr rfl
          intro k _
          rw [Finset.sum_mul]
      _ = ∑ m in Finset.range N, ∑ k in Finset.range N,
            x.getD m 0 * ω ^ (k * m) * ω' ^ (k * n) := Finset.sum_comm
      _ = ∑ m in Finset.range N, x.getD m 0 *
            ∑ k in Finset.range N, (ω ^ m * ω' ^ n) ^ k := by
          apply Finset.sum_congr rfl
          intro m _
          rw [Finset.mul_sum]
          apply Finset.sum_congr rfl
          intro k _
          rw [mul_pow, ← pow_mul, ← pow_mul, Nat.mul_comm m k, Nat.mul_comm n k]
          ring
  rw [hswap]
  rw [Finset.sum_congr rfl (fun m hm => by
    rw [root_pow_sum ω ω' N hωω' hω1 hprim m n (Finset.mem_range.mp hm) hn])]
  rw [Finset.sum_congr rfl (fun m _ => by rw [mul_ite, mul_zero])]
  rw [Finset.sum_ite_eq' (Finset.range N) n (fun m => x.getD m 0 * (N : ℂ))]
  rw [if_pos (Finset.mem_range.mpr hn)]
  rw [List.getD_eq_getElem x 0 h2]
  calc invN * (x[n] * (N : ℂ)) = x[n] * (invN * (N : ℂ)) := by ring
    _ = x[n] := by rw [hinv, mul_one]

/-- C6: applying `time2freq` and then `freq2time` reproduces the original
real-valued 2-D signal array exactly (the idealisation of numpy's
floating-point tolerance), operating independently per channel along the
sample axis; `freq2time` discards the residual imaginary parts and returns
a real-valued array.  The hypotheses state that `ω` is the primitive `N`-th
root used by `np.fft.fft`, `ω'` its inverse (the `ifft` root) and `invN`
the `1/N` normalisation. -/
theorem freq2time_time2freq (ω ω' invN : ℂ) (N : Nat)
    (hωω' : ω * ω' = 1) (hω1 : ω ^ N = 1)
    (hprim : ∀ j, 0 < j → j < N → ω ^ j ≠ 1)
    (hinv : invN * (N : ℂ) = 1)
    (sig : List (List ℝ)) (hrows : ∀ row ∈ sig, row.length = N) :
    freq2time ω' invN (time2freq ω sig) = sig := by
  rw [freq2time, time2freq, List.map_map]
  conv_rhs => rw [← List.map_id sig]
  apply List.map_congr_left
  intro row hrow
  have hlen : (row.map (fun x : ℝ => (x : ℂ))).length = N := by
    simp [hrows row hrow]
  simp only [Function.comp]
  rw [idft_dft ω ω' invN N hωω' hω1 hprim hinv _ hlen, List.map_map]
  have hcomp : List.map (Complex.re ∘ fun x : ℝ => (x : ℂ)) row = List.map id row :=
    List.map_congr_left (fun a _ => by simp)
  rw [hcomp, List.map_id]
  rfl

/-- Witness for C6 with `N = 2`: the root `-1`, its inverse `-1` and the
normalisation `1/2` recover the concrete signal `[[1, 2]]`. -/
theorem freq2time_time2freq_witness :
    ((-1 : ℂ) * (-1) = 1) ∧ ((-1 : ℂ) ^ (2 : Nat) = 1) ∧
      ((1 / 2 : ℂ) * ((2 : Nat) : ℂ) = 1) ∧
      freq2time (-1) (1 / 2) (time2freq (-1) [[1, 2]]) = [[1, 2]] := by
  refine ⟨by norm_num, by norm_num, by push_cast; norm_num, ?_⟩
  exact freq2time_time2freq (-1) (-1) (1 / 2) 2 (by norm_num) (by norm_num)
    (by intro j hj1 hj2; interval_cases j; norm_num)
    (by push_cast; norm_num) [[1, 2]]
    (by intro row hr; fin_cases hr; rfl)

theorem isEmpty_append_singleton (l : List String) (x : String) :
    (l ++ [x]).isEmpty = false := by
  cases l <;> rfl

theorem get_format_loop_eq_spec (order : Nat) :
    ∀ (rest : List ℚ) (i : Nat) (terms : List String),
      get_format_loop order i rest terms =
        terms ++ format_terms_spec order i terms.isEmpty rest := by
  intro rest
  induction rest with
  | nil => intro i terms; simp [get_format_loop, format_terms_spec]
  | cons coef rest ih =>
    intro i terms
    by_cases h0 : coef = 0
    · simp only [get_format_loop, format_terms_spec, if_pos h0]
      exact ih (i + 1) terms
    · by_cases hneg : coef < 0
      · simp [get_format_loop, format_terms_spec, h0, hneg, ih,
          List.append_assoc, isEmpty_append_singleton]
      · by_cases hemp : terms.isEmpty = true
        · simp [get_format_loop, format_terms_spec, h0, hneg, hemp, ih,
            List.append_assoc, List.isEmpty_iff.mp hemp, isEmpty_append_singleton]
        · simp [get_format_loop, format_terms_spec, h0, hneg, hemp, ih,
            List.append_assoc, isEmpty_append_singleton]

/-- C8: the formatting function renders a coefficient array exactly as the
specification describes it: term by term in descending exponent order,
omitting zero-coefficient terms, each coefficient's absolute value printed
to exactly 5 decimal places, no power suffix for exponent 0, `s` for
exponent 1 and `s^n` for `n ≥ 2`, `- ` prefixed to negative coefficients,
`+ ` joining subsequent positive terms and the first term left unsigned
when positive. -/
theorem get_format_eq_spec (a : List ℚ) : get_format a = get_format_spec a := by
  rw [get_format, get_format_spec, get_format_loop_eq_spec]
  rfl

end ToyMIMO
